import Mathlib

/-!
Verification of the ranked ordered index (leaderboard) implemented in
`leaderboard_core.py` (class `Leaderboard`) and the removal routine of
`leaderboard_userdriven.py` (`module_4_remove_driver`).

The Python code keeps

* `drivers`    : a list of `(gap, name)` tuples, kept sorted via the
  `bisect` module (`bisect_left` for lookup/removal, `insort` for insertion);
* `driver_map` : a dict `name -> gap`.

Scores are Python floats, but the core never performs arithmetic on them:
it only compares them.  We therefore model a score as either a rational
number or NaN, and give the comparison operators their IEEE semantics
(every comparison involving NaN, including equality, is false).  Keys are
strings, compared by code points exactly as Python compares strings.
`bisect_left`/`bisect_right` are modelled as the actual binary-search loops
of the Python standard library (fuel-indexed so that they are structurally
recursive), and the dict as an insertion-ordered association list with
unique keys.
-/

/-- A Python float as used by the leaderboard: a finite value (the code
only ever compares scores, so a rational suffices) or NaN. -/
inductive Score where
  | nan : Score
  | fin : ℚ → Score
deriving DecidableEq

/-- True on finite scores, false on NaN. -/
def Score.isFinite : Score → Bool
  | .nan => false
  | .fin _ => true

/-- Python `<` on floats: any comparison with NaN is false. -/
def Score.pyLt : Score → Score → Bool
  | .nan, _ => false
  | _, .nan => false
  | .fin a, .fin b => decide (a < b)

/-- Python `==` on floats: NaN is not equal to anything, itself included. -/
def Score.pyEq : Score → Score → Bool
  | .nan, _ => false
  | _, .nan => false
  | .fin a, .fin b => decide (a = b)

/-- Python `<` on lists of characters (strings), lexicographic by code
point. -/
def strLt : List Char → List Char → Bool
  | [], [] => false
  | [], _ :: _ => true
  | _ :: _, [] => false
  | a :: as, b :: bs => if a < b then true else if b < a then false else strLt as bs

/-- Python `<` on strings. -/
def keyLt (a b : String) : Bool := strLt a.data b.data

/-- An entry of the `drivers` list: a `(gap, name)` tuple. -/
abbrev Entry := Score × String

/-- Python `<` on `(gap, name)` tuples: compare gaps first, and on equal
gaps compare names. -/
def entryLt (x y : Entry) : Bool :=
  x.1.pyLt y.1 || (x.1.pyEq y.1 && keyLt x.2 y.2)

/-- Default entry used for (never reached) out-of-bounds list reads in the
binary-search loops. -/
def dfltEntry : Entry := (Score.nan, "")

theorem bnot_true {b : Bool} (h : (!b) = true) : b = false := by
  cases b <;> simp_all

theorem bnot_false {b : Bool} (h : (!b) = false) : b = true := by
  cases b <;> simp_all

section OrderLemmas

theorem strLt_irrefl (l : List Char) : strLt l l = false := by
  induction l with
  | nil => rfl
  | cons a as ih => simp [strLt, ih]

theorem strLt_connex : ∀ as bs : List Char,
    strLt as bs = false → strLt bs as = false → as = bs
  | [], [], _, _ => rfl
  | [], _ :: _, h, _ => by simp [strLt] at h
  | _ :: _, [], _, h => by simp [strLt] at h
  | a :: as, b :: bs, h, h2 => by
    simp only [strLt] at h h2
    rcases lt_trichotomy a b with hab | hab | hab
    · simp [hab] at h
    · subst hab
      simp only [lt_irrefl, if_false] at h h2
      exact congrArg (a :: ·) (strLt_connex as bs h h2)
    · simp [hab] at h2

theorem strLt_trans : ∀ as bs cs : List Char,
    strLt as bs = true → strLt bs cs = true → strLt as cs = true
  | [], bs, cs, h, h2 => by
    cases cs with
    | nil =>
      cases bs with
      | nil => exact absurd h (by simp [strLt])
      | cons b bs => exact absurd h2 (by simp [strLt])
    | cons c cs => simp [strLt]
  | _ :: _, [], _, h, _ => by simp [strLt] at h
  | _ :: _, _ :: _, [], _, h2 => by simp [strLt] at h2
  | a :: as, b :: bs, c :: cs, h, h2 => by
    simp only [strLt] at h h2 ⊢
    rcases lt_trichotomy a b with hab | hab | hab
    · rcases lt_trichotomy b c with hbc | hbc | hbc
      · have hac : a < c := lt_trans hab hbc
        simp [hac]
      · subst hbc; simp [hab]
      · rw [if_neg (lt_asymm hbc), if_pos hbc] at h2
        exact absurd h2 (by simp)
    · subst hab
      rcases lt_trichotomy a c with hbc | hbc | hbc
      · simp [hbc]
      · subst hbc
        simp only [lt_irrefl, if_false] at h h2 ⊢
        exact strLt_trans _ _ _ h h2
      · rw [if_neg (lt_asymm hbc), if_pos hbc] at h2
        exact absurd h2 (by simp)
    · rw [if_neg (lt_asymm hab), if_pos hab] at h
      exact absurd h (by simp)

theorem keyLt_irrefl (k : String) : keyLt k k = false := strLt_irrefl _

theorem keyLt_trans {a b c : String} (h : keyLt a b = true) (h2 : keyLt b c = true) :
    keyLt a c = true := strLt_trans _ _ _ h h2

theorem keyLt_connex {a b : String} (h : keyLt a b = false) (h2 : keyLt b a = false) :
    a = b := by
  have hd := strLt_connex _ _ h h2
  cases a with
  | mk da =>
    cases b with
    | mk db => exact congrArg String.mk hd

theorem pyLt_irrefl (s : Score) : s.pyLt s = false := by
  cases s with
  | nan => rfl
  | fin a => simp [Score.pyLt]

theorem pyEq_refl_fin (q : ℚ) : (Score.fin q).pyEq (Score.fin q) = true := by
  simp [Score.pyEq]

theorem pyEq_eq {a b : Score} (h : a.pyEq b = true) : a = b := by
  cases a <;> cases b <;> simp_all [Score.pyEq]

theorem pyEq_symm {a b : Score} (h : a.pyEq b = true) : b.pyEq a = true := by
  cases a <;> cases b <;> simp_all [Score.pyEq]

theorem pyLt_trans {a b c : Score} (h : a.pyLt b = true) (h2 : b.pyLt c = true) :
    a.pyLt c = true := by
  cases a <;> cases b <;> cases c <;> simp_all [Score.pyLt]
  exact lt_trans h h2

theorem pyLt_asymm {a b : Score} (h : a.pyLt b = true) : b.pyLt a = false := by
  cases a <;> cases b <;> simp_all [Score.pyLt]
  exact le_of_lt h

theorem pyLt_pyEq_false {a b : Score} (h : a.pyLt b = true) : a.pyEq b = false := by
  cases a <;> cases b <;> simp_all [Score.pyLt, Score.pyEq]
  exact ne_of_lt h

theorem entryLt_irrefl (e : Entry) : entryLt e e = false := by
  simp [entryLt, pyLt_irrefl, keyLt_irrefl]

theorem entryLt_trans {a b c : Entry} (h : entryLt a b = true) (h2 : entryLt b c = true) :
    entryLt a c = true := by
  obtain ⟨sa, ka⟩ := a
  obtain ⟨sb, kb⟩ := b
  obtain ⟨sc, kc⟩ := c
  simp only [entryLt, Bool.or_eq_true, Bool.and_eq_true] at h h2 ⊢
  rcases h with h | ⟨he, hk⟩
  · rcases h2 with h2 | ⟨he2, hk2⟩
    · exact Or.inl (pyLt_trans h h2)
    · have hbc : sb = sc := pyEq_eq he2
      subst hbc
      exact Or.inl h
  · have hab : sa = sb := pyEq_eq he
    subst hab
    rcases h2 with h2 | ⟨he2, hk2⟩
    · exact Or.inl h2
    · exact Or.inr ⟨he2, keyLt_trans hk hk2⟩

theorem entryLt_asymm {a b : Entry} (h : entryLt a b = true) : entryLt b a = false := by
  by_contra hc
  have hba : entryLt b a = true := by
    cases hx : entryLt b a with
    | false => exact absurd hx hc
    | true => rfl
  have := entryLt_trans h hba
  rw [entryLt_irrefl] at this
  exact Bool.false_ne_true this

theorem entryLt_ne {a b : Entry} (h : entryLt a b = true) : a ≠ b := by
  intro he
  subst he
  rw [entryLt_irrefl] at h
  exact Bool.false_ne_true h

/-- On finite entries the tuple order is total: two unrelated entries are
equal. -/
theorem entryLt_connex {a b : Entry} (ha : a.1.isFinite = true)
    (hb : b.1.isFinite = true) (h : entryLt a b = false) (h2 : entryLt b a = false) :
    a = b := by
  obtain ⟨sa, ka⟩ := a
  obtain ⟨sb, kb⟩ := b
  cases sa with
  | nan => simp [Score.isFinite] at ha
  | fin qa =>
    cases sb with
    | nan => simp [Score.isFinite] at hb
    | fin qb =>
      simp only [entryLt, Score.pyLt, Score.pyEq, Bool.or_eq_false_iff,
        Bool.and_eq_false_iff, decide_eq_false_iff_not] at h h2
      rcases lt_trichotomy qa qb with hq | hq | hq
      · exact absurd hq h.1
      · subst hq
        have hk : keyLt ka kb = false := by
          rcases h.2 with h' | h'
          · simp at h'
          · exact h'
        have hk2 : keyLt kb ka = false := by
          rcases h2.2 with h' | h'
          · simp at h'
          · exact h'
        rw [keyLt_connex hk hk2]
      · exact absurd hq h2.1

end OrderLemmas

/-!
## The `bisect` module and the dict

`bisect_left` and `bisect_right` are the binary-search loops of the Python
standard library.  They are written with an explicit fuel argument (the
loop runs at most `hi - lo` times, so any fuel of at least that size gives
the loop's exact behaviour) so that the definitions are structurally
recursive and evaluate by kernel reduction.  The loop body moves `lo` past
`mid` exactly when `step (a[mid])` holds, where `step e` is `e < x` for
`bisect_left` and `not (x < e)` for `bisect_right`.
-/

/-- The common binary-search loop shape of `bisect_left` and
`bisect_right`: while `lo < hi`, probe `mid = (lo + hi) / 2` and move
`lo` to `mid + 1` when `step` accepts `a[mid]`, else move `hi` to `mid`. -/
def bsLoop (step : Entry → Bool) (a : List Entry) : ℕ → ℕ → ℕ → ℕ
  | 0, lo, _ => lo
  | fuel + 1, lo, hi =>
    if lo < hi then
      let mid := (lo + hi) / 2
      if step (a.getD mid dfltEntry) then bsLoop step a fuel (mid + 1) hi
      else bsLoop step a fuel lo mid
    else lo

/-- Python `bisect.bisect_left(a, x)`. -/
def bisect_left (a : List Entry) (x : Entry) : ℕ :=
  bsLoop (fun e => entryLt e x) a a.length 0 a.length

/-- Python `bisect.bisect_right(a, x)` (the probe condition in the source
loop is `x < a[mid]`, which shrinks `hi`; otherwise `lo` moves up). -/
def bisect_right (a : List Entry) (x : Entry) : ℕ :=
  bsLoop (fun e => !entryLt x e) a a.length 0 a.length

/-- Python `bisect.insort(a, x)`: insert `x` at position
`bisect_right(a, x)`. -/
def insort (a : List Entry) (x : Entry) : List Entry :=
  List.insertIdx (bisect_right a x) x a

/-!
The dict `driver_map` is modelled as an insertion-ordered association
list, matching CPython dict semantics for the operations the code uses:
membership test, subscript read, subscript assignment (which keeps an
existing key at its position) and `del`.
-/

/-- Python `name in d` / `d[name]` combined: the value stored at `k`
(first — and, with unique keys, only — binding of `k`). -/
def dictGet : List (String × Score) → String → Option Score
  | [], _ => none
  | p :: m, k => if p.1 = k then some p.2 else dictGet m k

/-- Python `d[k] = v`: replace in place when the key exists, append
otherwise. -/
def dictSet (m : List (String × Score)) (k : String) (v : Score) :
    List (String × Score) :=
  if (dictGet m k).isSome then
    m.map (fun p => if p.1 == k then (k, v) else p)
  else m ++ [(k, v)]

/-- Python `del d[k]`. -/
def dictDel (m : List (String × Score)) (k : String) : List (String × Score) :=
  m.filter (fun p => !(p.1 == k))

/-- The `Leaderboard` class state: the sorted `drivers` list of
`(gap, name)` tuples and the `driver_map` dict. -/
structure Leaderboard where
  drivers : List Entry
  driver_map : List (String × Score)
deriving DecidableEq

namespace Leaderboard

/-- `Leaderboard.__init__`. -/
def init : Leaderboard := ⟨[], []⟩

/-- `Leaderboard.update(name, gap)`: pop the old entry when the key is
present (located with `bisect_left`), then `insort` the new entry and
write the dict. -/
def update (lb : Leaderboard) (name : String) (gap : Score) : Leaderboard :=
  let drivers1 :=
    match dictGet lb.driver_map name with
    | some old_gap => lb.drivers.eraseIdx (bisect_left lb.drivers (old_gap, name))
    | none => lb.drivers
  { drivers := insort drivers1 (gap, name)
    driver_map := dictSet lb.driver_map name gap }

/-- `Leaderboard.get_rank(name)`. -/
def get_rank (lb : Leaderboard) (name : String) : Option ℕ :=
  match dictGet lb.driver_map name with
  | none => none
  | some gap => some (bisect_left lb.drivers (gap, name) + 1)

/-- Python list slice `l[:k]` for an arbitrary (possibly negative) `k`. -/
def pyslice {α : Type} (l : List α) (k : ℤ) : List α :=
  if k < 0 then l.take ((l.length : ℤ) + k).toNat else l.take k.toNat

/-- `Leaderboard.top_k(k)`: enumerate the slice `drivers[:k]` and emit
`(i + 1, name, gap)` triples. -/
def top_k (lb : Leaderboard) (k : ℤ) : List (ℕ × String × Score) :=
  ((pyslice lb.drivers k).enum).map (fun p => (p.1 + 1, p.2.2, p.2.1))

end Leaderboard

/-- The essential removal logic of `module_4_remove_driver` in
`leaderboard_userdriven.py`, stripped of its prompts and printing: absent
keys are reported without touching the state (the module prints an error
and returns); for a present key the list is scanned for the first index
whose entry satisfies `n == name and g == gap`, that index is popped and
the key deleted from the dict.  The `Bool` result is `true` exactly on the
success path. -/
def removeDriver (lb : Leaderboard) (name : String) : Bool × Leaderboard :=
  match dictGet lb.driver_map name with
  | none => (false, lb)
  | some gap =>
    match lb.drivers.findIdx? (fun e => e.2 == name && e.1.pyEq gap) with
    | some idx => (true, ⟨lb.drivers.eraseIdx idx, dictDel lb.driver_map name⟩)
    | none => (false, lb)

/-- The invariant maintained by the leaderboard: `drivers` is strictly
sorted under the Python tuple order, all scores are finite, the entries of
`drivers` and of `driver_map` are the same pairs (up to component swap),
and dict keys are unique. -/
def LbInv (lb : Leaderboard) : Prop :=
  lb.drivers.Pairwise (fun a b => entryLt a b = true) ∧
  (∀ e ∈ lb.drivers, e.1.isFinite = true) ∧
  (∀ e ∈ lb.drivers, (e.2, e.1) ∈ lb.driver_map) ∧
  (∀ p ∈ lb.driver_map, (p.2, p.1) ∈ lb.drivers) ∧
  (lb.driver_map.map Prod.fst).Nodup

example : (Leaderboard.init.update "A" (Score.fin 2)).update "B" (Score.fin 1) =
    ⟨[(Score.fin 1, "B"), (Score.fin 2, "A")], [("A", Score.fin 2), ("B", Score.fin 1)]⟩ := by
  decide

example : ((Leaderboard.init.update "A" (Score.fin 2)).update "B" (Score.fin 1)).get_rank "A" =
    some 2 := by decide

instance : DecidablePred LbInv := fun lb => by
  unfold LbInv
  infer_instance

example : LbInv ((Leaderboard.init.update "A" (Score.fin 2)).update "B" (Score.fin 1)) := by
  decide

section BisectLemmas

/-- The loop result never exceeds the upper bound. -/
theorem bsLoop_le (step : Entry → Bool) (a : List Entry) :
    ∀ fuel lo hi, lo ≤ hi → bsLoop step a fuel lo hi ≤ hi := by
  intro fuel
  induction fuel with
  | zero => intro lo hi h; simpa [bsLoop] using h
  | succ fuel ih =>
    intro lo hi h
    simp only [bsLoop]
    by_cases hlh : lo < hi
    · simp only [if_pos hlh]
      by_cases hstep : step (a.getD ((lo + hi) / 2) dfltEntry) = true
      · simp only [hstep, if_true]
        exact ih _ _ (by omega)
      · simp only [hstep, if_false]
        exact le_trans (ih _ _ (by omega)) (by omega)
    · simpa [if_neg hlh] using h

/-- Correctness of the binary-search loop: when acceptance of `step` is
downward closed along the list, the loop returns the frontier index
separating the accepted prefix from the rejected suffix. -/
theorem bsLoop_spec (step : Entry → Bool) (a : List Entry)
    (dc : ∀ i j, i ≤ j → j < a.length →
      step (a.getD j dfltEntry) = true → step (a.getD i dfltEntry) = true) :
    ∀ fuel lo hi, lo ≤ hi → hi ≤ a.length → hi - lo ≤ fuel →
      (∀ j < lo, step (a.getD j dfltEntry) = true) →
      (∀ j, hi ≤ j → j < a.length → step (a.getD j dfltEntry) = false) →
      (∀ j < bsLoop step a fuel lo hi, step (a.getD j dfltEntry) = true) ∧
      (∀ j, bsLoop step a fuel lo hi ≤ j → j < a.length →
        step (a.getD j dfltEntry) = false) := by
  intro fuel
  induction fuel with
  | zero =>
    intro lo hi hle hhi hfuel hlow hhigh
    have : lo = hi := by omega
    subst this
    exact ⟨hlow, hhigh⟩
  | succ fuel ih =>
    intro lo hi hle hhi hfuel hlow hhigh
    simp only [bsLoop]
    by_cases hlh : lo < hi
    · simp only [if_pos hlh]
      set mid := (lo + hi) / 2 with hmid
      have hmid1 : lo ≤ mid := by omega
      have hmid2 : mid < hi := by omega
      by_cases hstep : step (a.getD mid dfltEntry) = true
      · simp only [hstep, if_true]
        refine ih (mid + 1) hi (by omega) hhi (by omega) ?_ hhigh
        intro j hj
        exact dc j mid (by omega) (by omega) hstep
      · simp only [hstep, if_false]
        refine ih lo mid (by omega) (by omega) (by omega) hlow ?_
        intro j hj hjlen
        cases hsj : step (a.getD j dfltEntry) with
        | false => rfl
        | true => exact absurd (dc mid j hj hjlen hsj) hstep
    · simp only [if_neg hlh]
      have : lo = hi := by omega
      subst this
      exact ⟨hlow, hhigh⟩

/-- Frontier characterization of `bisect_left` under downward closure. -/
theorem bisect_left_frontier (a : List Entry) (x : Entry)
    (dc : ∀ i j, i ≤ j → j < a.length →
      entryLt (a.getD j dfltEntry) x = true → entryLt (a.getD i dfltEntry) x = true) :
    (∀ j < bisect_left a x, entryLt (a.getD j dfltEntry) x = true) ∧
    (∀ j, bisect_left a x ≤ j → j < a.length →
      entryLt (a.getD j dfltEntry) x = false) := by
  exact bsLoop_spec _ a dc a.length 0 a.length (Nat.zero_le _) le_rfl (by omega)
    (by intro j hj; omega) (by intro j hj hjlen; omega)

/-- Frontier characterization of `bisect_right` under upward closure of
`x < a[j]`. -/
theorem bisect_right_frontier (a : List Entry) (x : Entry)
    (uc : ∀ i j, i ≤ j → j < a.length →
      entryLt x (a.getD i dfltEntry) = true → entryLt x (a.getD j dfltEntry) = true) :
    (∀ j < bisect_right a x, entryLt x (a.getD j dfltEntry) = false) ∧
    (∀ j, bisect_right a x ≤ j → j < a.length →
      entryLt x (a.getD j dfltEntry) = true) := by
  have h := bsLoop_spec (fun e => !entryLt x e) a ?_ a.length 0 a.length
    (Nat.zero_le _) le_rfl (by omega)
    (by intro j hj; omega) (by intro j hj hjlen; omega)
  · constructor
    · intro j hj
      have h1 := h.1 j hj
      exact bnot_true h1
    · intro j hj hjlen
      have h2 := h.2 j hj hjlen
      have h3 : (!entryLt x (a.getD j dfltEntry)) = false := h2
      cases hx : entryLt x (a.getD j dfltEntry) with
      | true => rfl
      | false => rw [hx] at h3; exact absurd h3 (by simp)
  · intro i j hij hjlen hi
    have hj0 : entryLt x (a.getD j dfltEntry) = false := bnot_true hi
    show (!entryLt x (a.getD i dfltEntry)) = true
    cases hxi : entryLt x (a.getD i dfltEntry) with
    | false => rfl
    | true =>
      have hup := uc i j hij hjlen hxi
      rw [hj0] at hup
      exact absurd hup Bool.false_ne_true

theorem bisect_left_le (a : List Entry) (x : Entry) : bisect_left a x ≤ a.length :=
  bsLoop_le _ a a.length 0 a.length (Nat.zero_le _)

theorem bisect_right_le (a : List Entry) (x : Entry) : bisect_right a x ≤ a.length :=
  bsLoop_le _ a a.length 0 a.length (Nat.zero_le _)

/-- Pairwise sortedness read through `getD`. -/
theorem pairwise_getD {a : List Entry}
    (hs : a.Pairwise (fun p q => entryLt p q = true)) {i j : ℕ}
    (hij : i < j) (hj : j < a.length) :
    entryLt (a.getD i dfltEntry) (a.getD j dfltEntry) = true := by
  have hi : i < a.length := lt_trans hij hj
  rw [List.getD_eq_getElem a dfltEntry hi, List.getD_eq_getElem a dfltEntry hj]
  exact List.pairwise_iff_getElem.mp hs i j hi hj hij

/-- Downward closure of `a[j] < x` along a sorted list. -/
theorem dc_of_sorted {a : List Entry} (x : Entry)
    (hs : a.Pairwise (fun p q => entryLt p q = true)) :
    ∀ i j, i ≤ j → j < a.length →
      entryLt (a.getD j dfltEntry) x = true → entryLt (a.getD i dfltEntry) x = true := by
  intro i j hij hj h
  rcases Nat.eq_or_lt_of_le hij with rfl | hlt
  · exact h
  · exact entryLt_trans (pairwise_getD hs hlt hj) h

/-- Upward closure of `x < a[j]` along a sorted list. -/
theorem uc_of_sorted {a : List Entry} (x : Entry)
    (hs : a.Pairwise (fun p q => entryLt p q = true)) :
    ∀ i j, i ≤ j → j < a.length →
      entryLt x (a.getD i dfltEntry) = true → entryLt x (a.getD j dfltEntry) = true := by
  intro i j hij hj h
  rcases Nat.eq_or_lt_of_le hij with rfl | hlt
  · exact h
  · exact entryLt_trans h (pairwise_getD hs hlt hj)

/-- On a sorted list, `bisect_left` locates a member exactly: it returns
the length of the prefix before the member. -/
theorem bisect_left_mem {l1 l2 : List Entry} {x : Entry}
    (hs : (l1 ++ x :: l2).Pairwise (fun p q => entryLt p q = true)) :
    bisect_left (l1 ++ x :: l2) x = l1.length := by
  have hlen : l1.length < (l1 ++ x :: l2).length := by simp
  have hx : (l1 ++ x :: l2).getD l1.length dfltEntry = x := by
    rw [List.getD_eq_getElem _ _ hlen, List.getElem_append_right le_rfl]
    simp
  have hfr := bisect_left_frontier (l1 ++ x :: l2) x (dc_of_sorted x hs)
  rcases lt_trichotomy (bisect_left (l1 ++ x :: l2) x) l1.length with h | h | h
  · exfalso
    have h2 := hfr.2 _ le_rfl (lt_trans h hlen)
    have h3 := pairwise_getD hs h hlen
    rw [hx] at h3
    rw [h3] at h2
    exact absurd h2 (by simp)
  · exact h
  · exfalso
    have h1 := hfr.1 l1.length h
    rw [hx, entryLt_irrefl] at h1
    exact Bool.false_ne_true h1

/-- On a list split into a prefix whose entries are not above `x` and a
suffix whose entries are strictly above `x`, `bisect_right` returns the
split point. -/
theorem bisect_right_pos {l1 l2 : List Entry} {x : Entry}
    (h1 : ∀ e ∈ l1, entryLt x e = false)
    (h2 : ∀ e ∈ l2, entryLt x e = true) :
    bisect_right (l1 ++ l2) x = l1.length := by
  have hget1 : ∀ j, j < l1.length → entryLt x ((l1 ++ l2).getD j dfltEntry) = false := by
    intro j hj
    have hjl : j < (l1 ++ l2).length := by simp; omega
    rw [List.getD_eq_getElem _ _ hjl, List.getElem_append_left hj]
    exact h1 _ (List.getElem_mem hj)
  have hget2 : ∀ j, l1.length ≤ j → j < (l1 ++ l2).length →
      entryLt x ((l1 ++ l2).getD j dfltEntry) = true := by
    intro j hjge hjl
    rw [List.getD_eq_getElem _ _ hjl, List.getElem_append_right hjge]
    exact h2 _ (List.getElem_mem _)
  have uc : ∀ i j, i ≤ j → j < (l1 ++ l2).length →
      entryLt x ((l1 ++ l2).getD i dfltEntry) = true →
      entryLt x ((l1 ++ l2).getD j dfltEntry) = true := by
    intro i j hij hjl hxi
    rcases Nat.lt_or_ge j l1.length with hj | hj
    · exfalso
      have hi0 := hget1 i (by omega)
      rw [hi0] at hxi
      exact Bool.false_ne_true hxi
    · exact hget2 j hj hjl
  have hfr := bisect_right_frontier (l1 ++ l2) x uc
  have hNle : bisect_right (l1 ++ l2) x ≤ (l1 ++ l2).length := bisect_right_le _ x
  have hl1le : l1.length ≤ (l1 ++ l2).length := by simp
  rcases lt_trichotomy (bisect_right (l1 ++ l2) x) l1.length with h | h | h
  · exfalso
    have hNlen : bisect_right (l1 ++ l2) x < (l1 ++ l2).length := by omega
    have hcontra := hfr.2 _ le_rfl hNlen
    rw [hget1 _ h] at hcontra
    exact Bool.false_ne_true hcontra
  · exact h
  · exfalso
    have hlenlt : l1.length < (l1 ++ l2).length := by omega
    have hcontra := hfr.1 l1.length h
    rw [hget2 l1.length le_rfl hlenlt] at hcontra
    exact absurd hcontra (by simp)

end BisectLemmas

section ListLemmas

/-- Inserting at position `n` splits the list at `n`. -/
theorem insertIdx_take_drop {α : Type} (x : α) :
    ∀ (n : ℕ) (l : List α), n ≤ l.length →
      List.insertIdx n x l = l.take n ++ x :: l.drop n
  | 0, l, _ => rfl
  | n + 1, [], h => by simp at h
  | n + 1, a :: l, h => by
    simp only [List.insertIdx_succ_cons, List.take_succ_cons, List.drop_succ_cons,
      List.cons_append, List.cons.injEq, true_and]
    exact insertIdx_take_drop x n l (by simpa using h)

/-- Inserting at the junction of an append produces the middle element. -/
theorem insertIdx_append_cons {α : Type} (x : α) :
    ∀ (l1 l2 : List α), List.insertIdx l1.length x (l1 ++ l2) = l1 ++ x :: l2
  | [], l2 => rfl
  | a :: l1, l2 => by
    simp only [List.length_cons, List.cons_append, List.insertIdx_succ_cons,
      List.cons.injEq, true_and]
    exact insertIdx_append_cons x l1 l2

/-- Erasing at the junction of an append removes the middle element. -/
theorem eraseIdx_append_cons {α : Type} (x : α) :
    ∀ (l1 l2 : List α), (l1 ++ x :: l2).eraseIdx l1.length = l1 ++ l2
  | [], l2 => rfl
  | a :: l1, l2 => by
    simp only [List.length_cons, List.cons_append, List.eraseIdx_cons_succ,
      List.cons.injEq, true_and]
    exact eraseIdx_append_cons x l1 l2

/-- An element of `l.take N` sits at an index below `N`. -/
theorem mem_take_idx {l : List Entry} {N : ℕ} {e : Entry} (he : e ∈ l.take N) :
    ∃ j, j < N ∧ j < l.length ∧ l.getD j dfltEntry = e := by
  obtain ⟨j, hj, hje⟩ := List.getElem_of_mem he
  have hjN : j < N := by
    have := hj
    simp only [List.length_take] at this
    omega
  have hjl : j < l.length := by
    have := hj
    simp only [List.length_take] at this
    omega
  refine ⟨j, hjN, hjl, ?_⟩
  rw [List.getD_eq_getElem _ _ hjl]
  rw [← hje, List.getElem_take]

/-- An element of `l.drop N` sits at an index at least `N`. -/
theorem mem_drop_idx {l : List Entry} {N : ℕ} {e : Entry} (he : e ∈ l.drop N) :
    ∃ j, N ≤ j ∧ j < l.length ∧ l.getD j dfltEntry = e := by
  obtain ⟨j, hj, hje⟩ := List.getElem_of_mem he
  have hjl : j < l.length - N := by
    have := hj
    simp only [List.length_drop] at this
    omega
  refine ⟨N + j, by omega, by omega, ?_⟩
  rw [List.getD_eq_getElem _ _ (by omega : N + j < l.length)]
  rw [← hje, List.getElem_drop]

/-- `findIdx?` on a split list whose prefix fails the predicate and whose
middle element satisfies it. -/
theorem findIdx_decomp {p : Entry → Bool} {x : Entry} (hx : p x = true) :
    ∀ (l1 l2 : List Entry) (s : ℕ), (∀ a ∈ l1, p a = false) →
      List.findIdx? p (l1 ++ x :: l2) s = some (s + l1.length)
  | [], l2, s, _ => by simp [List.findIdx?_cons, hx]
  | a :: l1, l2, s, h1 => by
    have ha : p a = false := h1 a (List.mem_cons_self a l1)
    simp only [List.cons_append, List.findIdx?_cons, ha, Bool.false_eq_true, if_false]
    rw [findIdx_decomp hx l1 l2 (s + 1) (fun b hb => h1 b (List.mem_cons_of_mem a hb))]
    congr 1
    simp only [List.length_cons]
    omega

/-- `eraseP` on a split list whose prefix fails the predicate and whose
middle element satisfies it. -/
theorem eraseP_decomp {p : Entry → Bool} {x : Entry} (hx : p x = true) :
    ∀ (l1 l2 : List Entry), (∀ a ∈ l1, p a = false) →
      List.eraseP p (l1 ++ x :: l2) = l1 ++ l2
  | [], l2, _ => by simp [List.eraseP_cons, hx]
  | a :: l1, l2, h1 => by
    have ha : p a = false := h1 a (List.mem_cons_self a l1)
    simp only [List.cons_append, List.eraseP_cons, ha, cond_false]
    rw [eraseP_decomp hx l1 l2 (fun b hb => h1 b (List.mem_cons_of_mem a hb))]

/-- A strictly sorted list has no duplicates. -/
theorem nodup_of_sorted {a : List Entry}
    (hs : a.Pairwise (fun p q => entryLt p q = true)) : a.Nodup :=
  hs.imp (fun h => entryLt_ne h)

end ListLemmas

section DictLemmas

theorem dictGet_none_iff {m : List (String × Score)} {k : String} :
    dictGet m k = none ↔ ∀ p ∈ m, p.1 ≠ k := by
  induction m with
  | nil => simp [dictGet]
  | cons p m ih =>
    by_cases hk : p.1 = k
    · simp [dictGet, hk]
    · simp only [dictGet, if_neg hk, ih, List.mem_cons]
      constructor
      · intro h q hq
        rcases hq with rfl | hq
        · exact hk
        · exact h q hq
      · intro h q hq
        exact h q (Or.inr hq)

theorem dictGet_some_mem {m : List (String × Score)} {k : String} {v : Score}
    (h : dictGet m k = some v) : (k, v) ∈ m := by
  induction m with
  | nil => simp [dictGet] at h
  | cons p m ih =>
    by_cases hk : p.1 = k
    · rw [dictGet, if_pos hk] at h
      have hv : p.2 = v := by
        injection h
      have hpv : p = (k, v) := Prod.ext hk hv
      rw [← hpv]
      exact List.mem_cons_self p m
    · rw [dictGet, if_neg hk] at h
      exact List.mem_cons_of_mem p (ih h)

/-- With unique keys, every member is found by `dictGet`. -/
theorem mem_dictGet {m : List (String × Score)} {k : String} {v : Score}
    (hnd : (m.map Prod.fst).Nodup) (h : (k, v) ∈ m) : dictGet m k = some v := by
  induction m with
  | nil => exact absurd h (List.not_mem_nil _)
  | cons p m ih =>
    simp only [List.map_cons, List.nodup_cons] at hnd
    rcases List.mem_cons.mp h with rfl | hmem
    · simp [dictGet]
    · by_cases hk : p.1 = k
      · exfalso
        apply hnd.1
        rw [hk]
        exact List.mem_map_of_mem Prod.fst hmem
      · rw [dictGet, if_neg hk]
        exact ih hnd.2 hmem

/-- With unique keys, values are determined by their key. -/
theorem dict_value_unique {m : List (String × Score)} {k : String} {v v2 : Score}
    (hnd : (m.map Prod.fst).Nodup) (h : (k, v) ∈ m) (h2 : (k, v2) ∈ m) : v = v2 := by
  have e1 := mem_dictGet hnd h
  have e2 := mem_dictGet hnd h2
  rw [e1] at e2
  exact Option.some_inj.mp e2

theorem dictSet_absent {m : List (String × Score)} {k : String} {v : Score}
    (h : dictGet m k = none) : dictSet m k v = m ++ [(k, v)] := by
  have hs : (dictGet m k).isSome = false := by rw [h]; rfl
  simp [dictSet, hs]

theorem dictSet_present {m : List (String × Score)} {k : String} {v gap : Score}
    (h : dictGet m k = some gap) :
    dictSet m k v = m.map (fun p => if p.1 == k then (k, v) else p) := by
  have hs : (dictGet m k).isSome = true := by rw [h]; rfl
  simp [dictSet, hs]

/-- Replacing the value at a key preserves the key sequence. -/
theorem dictSet_present_keys {m : List (String × Score)} {k : String} {v gap : Score}
    (h : dictGet m k = some gap) :
    (dictSet m k v).map Prod.fst = m.map Prod.fst := by
  rw [dictSet_present h, List.map_map]
  apply List.map_congr_left
  intro p _
  by_cases hk : p.1 = k
  · simp [hk]
  · simp [hk]

theorem mem_dictDel {m : List (String × Score)} {k : String} {p : String × Score} :
    p ∈ dictDel m k ↔ p ∈ m ∧ p.1 ≠ k := by
  simp [dictDel, List.mem_filter]

theorem dictDel_keys_nodup {m : List (String × Score)} {k : String}
    (hnd : (m.map Prod.fst).Nodup) : ((dictDel m k).map Prod.fst).Nodup :=
  List.Nodup.sublist (List.Sublist.map Prod.fst (List.filter_sublist m)) hnd

/-- Writing a key makes it readable, whatever the map contents. -/
theorem dictGet_dictSet_self (m : List (String × Score)) (k : String) (v : Score) :
    dictGet (dictSet m k v) k = some v := by
  cases hg : dictGet m k with
  | none =>
    rw [dictSet_absent hg]
    induction m with
    | nil => simp [dictGet]
    | cons p m ih =>
      have hk : p.1 ≠ k := by
        rw [dictGet_none_iff] at hg
        exact hg p (List.mem_cons_self p m)
      rw [List.cons_append, dictGet, if_neg hk]
      apply ih
      rw [dictGet_none_iff] at hg ⊢
      intro q hq
      exact hg q (List.mem_cons_of_mem p hq)
  | some gap =>
    rw [dictSet_present hg]
    induction m with
    | nil => simp [dictGet] at hg
    | cons p m ih =>
      by_cases hk : p.1 = k
      · have : (p.1 == k) = true := by simp [hk]
        simp only [List.map_cons, this, if_true, dictGet, if_pos rfl]
      · have hbk : (p.1 == k) = false := by simp [hk]
        rw [dictGet, if_neg hk] at hg
        simp only [List.map_cons, hbk, Bool.false_eq_true, if_false]
        rw [dictGet, if_neg hk]
        exact ih hg

end DictLemmas

section Preservation

/-- Where `insort` places a fresh finite entry in a sorted finite list:
the list splits into the part strictly before the new entry and the part
strictly after it. -/
theorem insort_decomp {a : List Entry} {x : Entry}
    (hs : a.Pairwise (fun p q => entryLt p q = true))
    (hfin : ∀ e ∈ a, e.1.isFinite = true)
    (hxfin : x.1.isFinite = true)
    (hfresh : ∀ e ∈ a, e ≠ x) :
    ∃ l1 l2, a = l1 ++ l2 ∧ insort a x = l1 ++ x :: l2 ∧
      (∀ e ∈ l1, entryLt e x = true) ∧ (∀ e ∈ l2, entryLt x e = true) := by
  have hNle : bisect_right a x ≤ a.length := bisect_right_le a x
  have hfr := bisect_right_frontier a x (uc_of_sorted x hs)
  refine ⟨a.take (bisect_right a x), a.drop (bisect_right a x),
    (List.take_append_drop _ a).symm, ?_, ?_, ?_⟩
  · rw [insort, insertIdx_take_drop x _ a hNle]
  · intro e he
    obtain ⟨j, hjN, hjl, hje⟩ := mem_take_idx he
    have hnotlt : entryLt x e = false := by
      rw [← hje]
      exact hfr.1 j hjN
    have hefin : e.1.isFinite = true := hfin e (List.mem_of_mem_take he)
    cases hlt : entryLt e x with
    | true => rfl
    | false =>
      exfalso
      exact hfresh e (List.mem_of_mem_take he) (entryLt_connex hefin hxfin hlt hnotlt)
  · intro e he
    obtain ⟨j, hjN, hjl, hje⟩ := mem_drop_idx he
    rw [← hje]
    exact hfr.2 j hjN hjl

/-- A key reported absent by the dict has no entry in a consistent
`drivers` list. -/
theorem drivers_key_fresh {lb : Leaderboard} (h : LbInv lb) {name : String}
    (hg : dictGet lb.driver_map name = none) :
    ∀ e ∈ lb.drivers, e.2 ≠ name := by
  intro e he hkey
  have hm := h.2.2.1 e he
  rw [dictGet_none_iff] at hg
  exact hg _ hm hkey

/-- A key reported present by the dict has exactly one entry in the
`drivers` list, and the list splits around it. -/
theorem present_decomp {lb : Leaderboard} (h : LbInv lb) {name : String} {gap : Score}
    (hg : dictGet lb.driver_map name = some gap) :
    ∃ t1 t2, lb.drivers = t1 ++ (gap, name) :: t2 ∧
      (∀ e ∈ t1 ++ t2, e.2 ≠ name) ∧ gap.isFinite = true := by
  obtain ⟨hsort, hfin, hfwd, hbwd, hnd⟩ := h
  have hmem : (name, gap) ∈ lb.driver_map := dictGet_some_mem hg
  have hx0 : (gap, name) ∈ lb.drivers := hbwd (name, gap) hmem
  have hfingap : gap.isFinite = true := hfin (gap, name) hx0
  obtain ⟨t1, t2, hdec⟩ := List.append_of_mem hx0
  refine ⟨t1, t2, hdec, ?_, hfingap⟩
  intro e he hkey
  have hedrv : e ∈ lb.drivers := by
    rw [hdec]
    rcases List.mem_append.mp he with h1 | h2
    · exact List.mem_append.mpr (Or.inl h1)
    · exact List.mem_append.mpr (Or.inr (List.mem_cons_of_mem _ h2))
  have hem : (e.2, e.1) ∈ lb.driver_map := hfwd e hedrv
  rw [hkey] at hem
  have : e.1 = gap := dict_value_unique hnd hem hmem
  have hex0 : e = (gap, name) := by
    obtain ⟨e1, e2⟩ := e
    simp only at hkey this
    rw [hkey, this]
  have hnodup : lb.drivers.Nodup := nodup_of_sorted hsort
  rw [hdec] at hnodup
  obtain ⟨hnd1, hnd2, hdisj⟩ := List.nodup_append.mp hnodup
  rcases List.mem_append.mp he with h1 | h2
  · exact hdisj (hex0 ▸ h1) (List.mem_cons_self _ _)
  · exact (List.nodup_cons.mp hnd2).1 (hex0 ▸ h2)

/-- `update` with a finite score preserves the invariant. -/
theorem update_LbInv (lb : Leaderboard) (h : LbInv lb) (name : String) (q : ℚ) :
    LbInv (lb.update name (Score.fin q)) := by
  have h0 := h
  obtain ⟨hsort, hfin, hfwd, hbwd, hnd⟩ := h
  cases hg : dictGet lb.driver_map name with
  | none =>
    have hfresh := drivers_key_fresh h0 hg
    have hfresh' : ∀ e ∈ lb.drivers, e ≠ (Score.fin q, name) := by
      intro e he hx
      exact hfresh e he (by rw [hx])
    obtain ⟨l1, l2, hsplit, hins, hl1, hl2⟩ :=
      insort_decomp hsort hfin (by rfl) hfresh'
    have hupd : lb.update name (Score.fin q) =
        ⟨l1 ++ (Score.fin q, name) :: l2, lb.driver_map ++ [(name, Score.fin q)]⟩ := by
      simp only [Leaderboard.update, hg, dictSet_absent hg, hins]
    rw [hupd]
    have hsort12 : (l1 ++ l2).Pairwise (fun p q => entryLt p q = true) := hsplit ▸ hsort
    obtain ⟨hp1, hp2, hcross⟩ := List.pairwise_append.mp hsort12
    refine ⟨?_, ?_, ?_, ?_, ?_⟩
    · rw [List.pairwise_append, List.pairwise_cons]
      refine ⟨hp1, ⟨fun b hb => hl2 b hb, hp2⟩, ?_⟩
      intro aa ha bb hb
      rcases List.mem_cons.mp hb with rfl | hb2
      · exact hl1 aa ha
      · exact hcross aa ha bb hb2
    · intro e he
      rcases List.mem_append.mp he with h1 | h2
      · exact hfin e (hsplit ▸ List.mem_append.mpr (Or.inl h1))
      · rcases List.mem_cons.mp h2 with rfl | h3
        · rfl
        · exact hfin e (hsplit ▸ List.mem_append.mpr (Or.inr h3))
    · intro e he
      rcases List.mem_append.mp he with h1 | h2
      · exact List.mem_append.mpr (Or.inl (hfwd e (hsplit ▸ List.mem_append.mpr (Or.inl h1))))
      · rcases List.mem_cons.mp h2 with rfl | h3
        · exact List.mem_append.mpr (Or.inr (List.mem_singleton.mpr rfl))
        · exact List.mem_append.mpr (Or.inl (hfwd e (hsplit ▸ List.mem_append.mpr (Or.inr h3))))
    · intro p hp
      rcases List.mem_append.mp hp with h1 | h2
      · have := hbwd p h1
        rw [hsplit] at this
        rcases List.mem_append.mp this with h3 | h4
        · exact List.mem_append.mpr (Or.inl h3)
        · exact List.mem_append.mpr (Or.inr (List.mem_cons_of_mem _ h4))
      · have hpv : p = (name, Score.fin q) := List.mem_singleton.mp h2
        rw [hpv]
        exact List.mem_append.mpr (Or.inr (List.mem_cons_self _ _))
    · rw [List.map_append]
      rw [List.nodup_append]
      refine ⟨hnd, by simp, ?_⟩
      simp only [List.map_cons, List.map_nil, List.disjoint_singleton]
      intro hmm
      obtain ⟨p, hp, hp1⟩ := List.mem_map.mp hmm
      rw [dictGet_none_iff] at hg
      exact hg p hp hp1
  | some old =>
    obtain ⟨t1, t2, hdec, hfresh12, holdfin⟩ := present_decomp h0 hg
    have hbl : bisect_left lb.drivers (old, name) = t1.length := by
      rw [hdec]
      exact bisect_left_mem (hdec ▸ hsort)
    have herase : lb.drivers.eraseIdx (bisect_left lb.drivers (old, name)) = t1 ++ t2 := by
      rw [hbl, hdec, eraseIdx_append_cons]
    have hsub : (t1 ++ t2).Sublist lb.drivers := by
      rw [hdec]
      exact List.Sublist.append_left (List.sublist_cons_self _ t2) t1
    have hsort12 : (t1 ++ t2).Pairwise (fun p q => entryLt p q = true) :=
      List.Pairwise.sublist hsub hsort
    have hfin12 : ∀ e ∈ t1 ++ t2, e.1.isFinite = true :=
      fun e he => hfin e (hsub.mem he)
    have hfresh' : ∀ e ∈ t1 ++ t2, e ≠ (Score.fin q, name) := by
      intro e he hx
      exact hfresh12 e he (by rw [hx])
    obtain ⟨l1, l2, hsplit, hins, hl1, hl2⟩ :=
      insort_decomp hsort12 hfin12 (by rfl) hfresh'
    have hupd : lb.update name (Score.fin q) =
        ⟨l1 ++ (Score.fin q, name) :: l2,
          lb.driver_map.map (fun p => if p.1 == name then (name, Score.fin q) else p)⟩ := by
      simp only [Leaderboard.update, hg, herase, hins, dictSet_present hg]
    rw [hupd]
    obtain ⟨hp1, hp2, hcross⟩ := List.pairwise_append.mp (hsplit ▸ hsort12)
    refine ⟨?_, ?_, ?_, ?_, ?_⟩
    · rw [List.pairwise_append, List.pairwise_cons]
      refine ⟨hp1, ⟨fun b hb => hl2 b hb, hp2⟩, ?_⟩
      intro aa ha bb hb
      rcases List.mem_cons.mp hb with rfl | hb2
      · exact hl1 aa ha
      · exact hcross aa ha bb hb2
    · intro e he
      rcases List.mem_append.mp he with h1 | h2
      · exact hfin12 e (hsplit ▸ List.mem_append.mpr (Or.inl h1))
      · rcases List.mem_cons.mp h2 with rfl | h3
        · rfl
        · exact hfin12 e (hsplit ▸ List.mem_append.mpr (Or.inr h3))
    · intro e he
      have hename : e ∈ l1 ++ l2 → (e.2, e.1) ∈ lb.driver_map.map
          (fun p => if p.1 == name then (name, Score.fin q) else p) := by
        intro he12
        have he12' : e ∈ t1 ++ t2 := hsplit ▸ he12
        have hem : (e.2, e.1) ∈ lb.driver_map := hfwd e (hsub.mem he12')
        have hkey : e.2 ≠ name := hfresh12 e he12'
        have hfe2 : (fun p => if p.1 == name then (name, Score.fin q) else p) (e.2, e.1) =
            (e.2, e.1) := by
          simp only [beq_iff_eq]
          rw [if_neg hkey]
        have hmm := List.mem_map_of_mem
          (fun p => if p.1 == name then (name, Score.fin q) else p) hem
        rw [hfe2] at hmm
        exact hmm
      rcases List.mem_append.mp he with h1 | h2
      · exact hename (List.mem_append.mpr (Or.inl h1))
      · rcases List.mem_cons.mp h2 with rfl | h3
        · have hmem : (name, old) ∈ lb.driver_map := dictGet_some_mem hg
          have hfe : (fun p => if p.1 == name then (name, Score.fin q) else p) (name, old) =
              (name, Score.fin q) := by
            simp
          have hmm := List.mem_map_of_mem
            (fun p => if p.1 == name then (name, Score.fin q) else p) hmem
          rw [hfe] at hmm
          exact hmm
        · exact hename (List.mem_append.mpr (Or.inr h3))
    · intro p hp
      obtain ⟨p0, hp0, hp0e⟩ := List.mem_map.mp hp
      by_cases hk : p0.1 = name
      · have : p = (name, Score.fin q) := by
          rw [← hp0e]
          simp [hk]
        rw [this]
        exact List.mem_append.mpr (Or.inr (List.mem_cons_self _ _))
      · have hpp0 : p = p0 := by
          rw [← hp0e]
          simp only [beq_iff_eq]
          rw [if_neg hk]
        rw [hpp0]
        have hdrv : (p0.2, p0.1) ∈ lb.drivers := hbwd p0 hp0
        rw [hdec] at hdrv
        rcases List.mem_append.mp hdrv with h1 | h2
        · have : (p0.2, p0.1) ∈ l1 ++ l2 := by
            rw [← hsplit]
            exact List.mem_append.mpr (Or.inl h1)
          rcases List.mem_append.mp this with h3 | h4
          · exact List.mem_append.mpr (Or.inl h3)
          · exact List.mem_append.mpr (Or.inr (List.mem_cons_of_mem _ h4))
        · rcases List.mem_cons.mp h2 with heq | h3
          · exfalso
            have : (p0.2, p0.1).2 = name := by rw [heq]
            exact hk this
          · have : (p0.2, p0.1) ∈ l1 ++ l2 := by
              rw [← hsplit]
              exact List.mem_append.mpr (Or.inr h3)
            rcases List.mem_append.mp this with h4 | h5
            · exact List.mem_append.mpr (Or.inl h4)
            · exact List.mem_append.mpr (Or.inr (List.mem_cons_of_mem _ h5))
    · have hkeys := @dictSet_present_keys lb.driver_map name (Score.fin q) old hg
      rw [dictSet_present hg] at hkeys
      rw [hkeys]
      exact hnd

end Preservation

section RemovePath

/-- What `removeDriver` does on a present key: it reports success and
drops exactly the key's entry and dict binding. -/
theorem removeDriver_present {lb : Leaderboard} (h : LbInv lb) {name : String}
    {gap : Score} (hg : dictGet lb.driver_map name = some gap) :
    ∃ t1 t2, lb.drivers = t1 ++ (gap, name) :: t2 ∧
      removeDriver lb name = (true, ⟨t1 ++ t2, dictDel lb.driver_map name⟩) ∧
      (∀ e ∈ t1 ++ t2, e.2 ≠ name) := by
  obtain ⟨t1, t2, hdec, hfresh, hfinite⟩ := present_decomp h hg
  obtain ⟨q, hq⟩ : ∃ q, gap = Score.fin q := by
    cases gap with
    | nan => simp [Score.isFinite] at hfinite
    | fin q => exact ⟨q, rfl⟩
  have hpredx : (fun e : Entry => e.2 == name && e.1.pyEq gap) (gap, name) = true := by
    rw [hq]
    simp [pyEq_refl_fin]
  have hpred1 : ∀ a ∈ t1, (fun e : Entry => e.2 == name && e.1.pyEq gap) a = false := by
    intro a ha
    have : a.2 ≠ name := hfresh a (List.mem_append.mpr (Or.inl ha))
    simp [this]
  have hfind : lb.drivers.findIdx? (fun e => e.2 == name && e.1.pyEq gap) = some t1.length := by
    rw [hdec]
    have := findIdx_decomp hpredx t1 t2 0 hpred1
    simpa using this
  refine ⟨t1, t2, hdec, ?_, hfresh⟩
  simp only [removeDriver, hg, hfind]
  rw [hdec, eraseIdx_append_cons]

/-- `removeDriver` preserves the invariant. -/
theorem removeDriver_LbInv (lb : Leaderboard) (h : LbInv lb) (name : String) :
    LbInv (removeDriver lb name).2 := by
  cases hg : dictGet lb.driver_map name with
  | none =>
    simp only [removeDriver, hg]
    exact h
  | some gap =>
    obtain ⟨t1, t2, hdec, hres, hfresh⟩ := removeDriver_present h hg
    rw [hres]
    obtain ⟨hsort, hfin, hfwd, hbwd, hnd⟩ := h
    have hsub : (t1 ++ t2).Sublist lb.drivers := by
      rw [hdec]
      exact List.Sublist.append_left (List.sublist_cons_self _ t2) t1
    refine ⟨List.Pairwise.sublist hsub hsort, fun e he => hfin e (hsub.mem he), ?_, ?_,
      dictDel_keys_nodup hnd⟩
    · intro e he
      exact mem_dictDel.mpr ⟨hfwd e (hsub.mem he), hfresh e he⟩
    · intro p hp
      obtain ⟨hpm, hpk⟩ := mem_dictDel.mp hp
      have hdrv := hbwd p hpm
      rw [hdec] at hdrv
      rcases List.mem_append.mp hdrv with h1 | h2
      · exact List.mem_append.mpr (Or.inl h1)
      · rcases List.mem_cons.mp h2 with heq | h3
        · exfalso
          apply hpk
          have : (p.2, p.1).2 = ((gap, name) : Entry).2 := by rw [heq]
          exact this
        · exact List.mem_append.mpr (Or.inr h3)

end RemovePath

section OpSequences

/-- The empty leaderboard satisfies the invariant. -/
theorem init_LbInv : LbInv Leaderboard.init := by
  refine ⟨List.Pairwise.nil, ?_, ?_, ?_, List.nodup_nil⟩ <;> intro e he <;>
    exact absurd he (List.not_mem_nil e)

/-- An API operation: an upsert with a finite score, or a removal. -/
inductive Op where
  | upsert (name : String) (q : ℚ) : Op
  | remove (name : String) : Op

/-- Interpret one operation on the leaderboard state. -/
def applyOp (lb : Leaderboard) : Op → Leaderboard
  | .upsert name q => lb.update name (Score.fin q)
  | .remove name => (removeDriver lb name).2

/-- Run a sequence of operations from the empty leaderboard. -/
def runOps (ops : List Op) : Leaderboard :=
  ops.foldl applyOp Leaderboard.init

theorem applyOp_LbInv (lb : Leaderboard) (h : LbInv lb) (op : Op) :
    LbInv (applyOp lb op) := by
  cases op with
  | upsert name q => exact update_LbInv lb h name q
  | remove name => exact removeDriver_LbInv lb h name

theorem foldl_LbInv (ops : List Op) : ∀ lb, LbInv lb → LbInv (ops.foldl applyOp lb) := by
  induction ops with
  | nil => exact fun lb h => h
  | cons op ops ih => exact fun lb h => ih (applyOp lb op) (applyOp_LbInv lb h op)

theorem runOps_LbInv (ops : List Op) : LbInv (runOps ops) :=
  foldl_LbInv ops Leaderboard.init init_LbInv

end OpSequences

/-- A small concrete leaderboard used by witnesses. -/
def lbAB : Leaderboard :=
  (Leaderboard.init.update "A" (Score.fin 2)).update "B" (Score.fin 1)

/-- C1: for every invariant-satisfying state, `get_rank` of a present key
is one plus the number of entries strictly below the key's entry in the
tuple order, and `get_rank` of an absent key is `none`. -/
theorem C1_rank_correct (lb : Leaderboard) (h : LbInv lb) (name : String) :
    (∀ gap, dictGet lb.driver_map name = some gap →
      lb.get_rank name = some (lb.drivers.countP (fun e => entryLt e (gap, name)) + 1)) ∧
    (dictGet lb.driver_map name = none → lb.get_rank name = none) := by
  constructor
  · intro gap hg
    obtain ⟨t1, t2, hdec, hfresh, hfinite⟩ := present_decomp h hg
    have hsort := h.1
    have hbl : bisect_left lb.drivers (gap, name) = t1.length := by
      rw [hdec]
      exact bisect_left_mem (hdec ▸ hsort)
    obtain ⟨hp1, hp2x, hcross⟩ := List.pairwise_append.mp (hdec ▸ hsort)
    have hcount : lb.drivers.countP (fun e => entryLt e (gap, name)) = t1.length := by
      rw [hdec, List.countP_append, List.countP_cons]
      have hc1 : t1.countP (fun e => entryLt e (gap, name)) = t1.length :=
        List.countP_eq_length.mpr (fun a ha => hcross a ha _ (List.mem_cons_self _ _))
      have hc2 : t2.countP (fun e => entryLt e (gap, name)) = 0 :=
        List.countP_eq_zero.mpr (fun a ha => by
          have hlt := (List.pairwise_cons.mp hp2x).1 a ha
          simp [entryLt_asymm hlt])
      rw [hc1, hc2, entryLt_irrefl]
      simp
    simp only [Leaderboard.get_rank, hg, hbl, hcount]
  · intro hg
    simp [Leaderboard.get_rank, hg]

theorem C1_rank_correct_witness :
    LbInv lbAB ∧ dictGet lbAB.driver_map "A" = some (Score.fin 2) ∧
      lbAB.get_rank "A" =
        some (lbAB.drivers.countP (fun e => entryLt e (Score.fin 2, "A")) + 1) :=
  ⟨by decide, by decide, (C1_rank_correct lbAB (by decide) "A").1 (Score.fin 2) (by decide)⟩

/-- C3: after any sequence of upserts and removals starting from the
empty leaderboard, the `drivers` list is in non-decreasing tuple order
(no later entry is strictly below an earlier one). -/
theorem C3_ordering_invariant (ops : List Op) :
    (runOps ops).drivers.Pairwise (fun a b => entryLt b a = false) :=
  ((runOps_LbInv ops).1).imp (fun h => entryLt_asymm h)

/-- C4: after any sequence of operations from the empty leaderboard, the
dict bindings and the list entries are the same pairs, every listed key is
readable from the dict with the same score, and each key occurs in the
list exactly once. -/
theorem C4_bijection_invariant (ops : List Op) :
    (∀ p ∈ (runOps ops).driver_map, (p.2, p.1) ∈ (runOps ops).drivers) ∧
    (∀ e ∈ (runOps ops).drivers, (e.2, e.1) ∈ (runOps ops).driver_map) ∧
    (∀ e ∈ (runOps ops).drivers, dictGet (runOps ops).driver_map e.2 = some e.1) ∧
    (∀ e ∈ (runOps ops).drivers,
      (runOps ops).drivers.countP (fun e2 => e2.2 == e.2) = 1) := by
  obtain ⟨hsort, hfin, hfwd, hbwd, hnd⟩ := runOps_LbInv ops
  refine ⟨hbwd, hfwd, ?_, ?_⟩
  · intro e he
    exact mem_dictGet hnd (hfwd e he)
  · intro e he
    have hg : dictGet (runOps ops).driver_map e.2 = some e.1 := mem_dictGet hnd (hfwd e he)
    obtain ⟨t1, t2, hdec, hfresh, hfin2⟩ := present_decomp (runOps_LbInv ops) hg
    rw [hdec, List.countP_append, List.countP_cons]
    have hc1 : t1.countP (fun e2 => e2.2 == e.2) = 0 := List.countP_eq_zero.mpr
      (fun a ha => by simp [hfresh a (List.mem_append.mpr (Or.inl ha))])
    have hc2 : t2.countP (fun e2 => e2.2 == e.2) = 0 := List.countP_eq_zero.mpr
      (fun a ha => by simp [hfresh a (List.mem_append.mpr (Or.inr ha))])
    rw [hc1, hc2]
    simp

/-- C6: removing an absent key reports failure and leaves the state
untouched; removing a present key reports success, erases exactly the
key's entry from the list (shrinking it by one) and deletes the dict
binding. -/
theorem C6_remove_semantics (lb : Leaderboard) (h : LbInv lb) (name : String) :
    (dictGet lb.driver_map name = none → removeDriver lb name = (false, lb)) ∧
    (∀ gap, dictGet lb.driver_map name = some gap →
      (removeDriver lb name).1 = true ∧
      (removeDriver lb name).2.drivers = lb.drivers.eraseP (fun e => e.2 == name) ∧
      (removeDriver lb name).2.driver_map = dictDel lb.driver_map name ∧
      (removeDriver lb name).2.drivers.length + 1 = lb.drivers.length) := by
  constructor
  · intro hg
    simp [removeDriver, hg]
  · intro gap hg
    obtain ⟨t1, t2, hdec, hres, hfresh⟩ := removeDriver_present h hg
    have herasp : lb.drivers.eraseP (fun e => e.2 == name) = t1 ++ t2 := by
      rw [hdec]
      exact eraseP_decomp (by simp) t1 t2
        (fun a ha => by simp [hfresh a (List.mem_append.mpr (Or.inl ha))])
    rw [hres, herasp]
    refine ⟨rfl, rfl, rfl, ?_⟩
    rw [hdec]
    simp only [List.length_append, List.length_cons]
    omega

theorem C6_remove_semantics_witness :
    LbInv lbAB ∧
    (dictGet lbAB.driver_map "C" = none ∧ removeDriver lbAB "C" = (false, lbAB)) ∧
    (dictGet lbAB.driver_map "A" = some (Score.fin 2) ∧
      (removeDriver lbAB "A").1 = true ∧
      (removeDriver lbAB "A").2.drivers = lbAB.drivers.eraseP (fun e => e.2 == "A") ∧
      (removeDriver lbAB "A").2.driver_map = dictDel lbAB.driver_map "A" ∧
      (removeDriver lbAB "A").2.drivers.length + 1 = lbAB.drivers.length) := by
  refine ⟨by decide, ⟨by decide, ?_⟩, ⟨by decide, ?_⟩⟩
  · exact (C6_remove_semantics lbAB (by decide) "C").1 (by decide)
  · exact (C6_remove_semantics lbAB (by decide) "A").2 (Score.fin 2) (by decide)

/-- C7: upserting a present key with its current score is a no-op: the
resulting state is equal to the original one (hence rank, size and
traversal are unchanged). -/
theorem C7_noop_upsert (lb : Leaderboard) (h : LbInv lb) (name : String) (gap : Score)
    (hg : dictGet lb.driver_map name = some gap) :
    lb.update name gap = lb := by
  obtain ⟨t1, t2, hdec, hfresh, hfinite⟩ := present_decomp h hg
  obtain ⟨hsort, hfin, hfwd, hbwd, hnd⟩ := h
  have hbl : bisect_left lb.drivers (gap, name) = t1.length := by
    rw [hdec]
    exact bisect_left_mem (hdec ▸ hsort)
  have herase : lb.drivers.eraseIdx (bisect_left lb.drivers (gap, name)) = t1 ++ t2 := by
    rw [hbl, hdec, eraseIdx_append_cons]
  obtain ⟨hp1, hp2x, hcross⟩ := List.pairwise_append.mp (hdec ▸ hsort)
  have hl1 : ∀ e ∈ t1, entryLt (gap, name) e = false :=
    fun e he => entryLt_asymm (hcross e he _ (List.mem_cons_self _ _))
  have hl2 : ∀ e ∈ t2, entryLt (gap, name) e = true :=
    fun e he => (List.pairwise_cons.mp hp2x).1 e he
  have hbr : bisect_right (t1 ++ t2) (gap, name) = t1.length := bisect_right_pos hl1 hl2
  have hins : insort (t1 ++ t2) (gap, name) = t1 ++ (gap, name) :: t2 := by
    rw [insort, hbr, insertIdx_append_cons]
  have hmap : dictSet lb.driver_map name gap = lb.driver_map := by
    rw [dictSet_present hg]
    have hpt : ∀ p ∈ lb.driver_map,
        (fun p => if p.1 == name then (name, gap) else p) p = id p := by
      intro p hp
      by_cases hk : p.1 = name
      · have hpe : p = (name, p.2) := by
          rw [← hk]
        have hpm : (name, p.2) ∈ lb.driver_map := hpe ▸ hp
        have hval : p.2 = gap := dict_value_unique hnd hpm (dictGet_some_mem hg)
        have hfull : p = (name, gap) := by
          rw [hval] at hpe
          exact hpe
        have hb : (p.1 == name) = true := by simp [hk]
        simp only [hb, if_true, id_eq]
        exact hfull.symm
      · have hb : (p.1 == name) = false := by simp [hk]
        simp only [hb, Bool.false_eq_true, if_false, id_eq]
    rw [List.map_congr_left hpt, List.map_id]
  have hupd : lb.update name gap =
      ⟨insort (t1 ++ t2) (gap, name), dictSet lb.driver_map name gap⟩ := by
    simp only [Leaderboard.update, hg, herase]
  rw [hupd, hins, hmap, ← hdec]

theorem C7_noop_upsert_witness :
    LbInv lbAB ∧ dictGet lbAB.driver_map "A" = some (Score.fin 2) ∧
      lbAB.update "A" (Score.fin 2) = lbAB :=
  ⟨by decide, by decide, C7_noop_upsert lbAB (by decide) "A" (Score.fin 2) (by decide)⟩

section TopK

/-- Ranks emitted by the enumeration all shift the index by one. -/
theorem enumFrom_map_rank : ∀ (l : List Entry) (n : ℕ),
    (List.enumFrom n l).map (fun p => p.1 + 1) = List.range' (n + 1) l.length
  | [], _ => rfl
  | e :: l, n => by
    simp only [List.enumFrom, List.map_cons, List.length_cons, List.range'_succ]
    exact congrArg (List.cons (n + 1)) (enumFrom_map_rank l (n + 1))

/-- Projecting the `top_k` triples back to `(gap, name)` pairs recovers the
enumerated slice. -/
theorem top_k_entries (lb : Leaderboard) (k : ℤ) :
    (lb.top_k k).map (fun t => (t.2.2, t.2.1)) = Leaderboard.pyslice lb.drivers k := by
  rw [Leaderboard.top_k, List.map_map]
  have hpt : ∀ p ∈ (Leaderboard.pyslice lb.drivers k).enum,
      ((fun (t : ℕ × String × Score) => (t.2.2, t.2.1)) ∘
        (fun (p : ℕ × Entry) => (p.1 + 1, p.2.2, p.2.1))) p = Prod.snd p := by
    intro p _
    obtain ⟨i, sc, nm⟩ := p
    rfl
  rw [List.map_congr_left hpt, List.enum_map_snd]

/-- The ranks in `top_k` are `1, 2, …` up to the slice length. -/
theorem top_k_ranks (lb : Leaderboard) (k : ℤ) :
    (lb.top_k k).map (fun t => t.1) = List.range' 1 (Leaderboard.pyslice lb.drivers k).length := by
  rw [Leaderboard.top_k, List.map_map]
  have hpt : ∀ p ∈ (Leaderboard.pyslice lb.drivers k).enum,
      ((fun (t : ℕ × String × Score) => t.1) ∘
        (fun (p : ℕ × Entry) => (p.1 + 1, p.2.2, p.2.1))) p =
        (fun (p : ℕ × Entry) => p.1 + 1) p := by
    intro p _
    rfl
  rw [List.map_congr_left hpt]
  exact enumFrom_map_rank (Leaderboard.pyslice lb.drivers k) 0

/-- C2: for `k ≥ 0`, `top_k` lists exactly the first `k` entries of the
in-order traversal in the same order, with ranks `1..min k size`, and for
`k` at least the size it lists every entry. -/
theorem C2_top_k_prefix (lb : Leaderboard) (k : ℤ) (hk : 0 ≤ k) :
    (lb.top_k k).map (fun t => (t.2.2, t.2.1)) = lb.drivers.take k.toNat ∧
    (lb.top_k k).map (fun t => t.1) = List.range' 1 (min k.toNat lb.drivers.length) ∧
    ((lb.drivers.length : ℤ) ≤ k →
      (lb.top_k k).map (fun t => (t.2.2, t.2.1)) = lb.drivers) := by
  have hslice : Leaderboard.pyslice lb.drivers k = lb.drivers.take k.toNat := by
    rw [Leaderboard.pyslice, if_neg (by omega : ¬ k < 0)]
  refine ⟨?_, ?_, ?_⟩
  · rw [top_k_entries, hslice]
  · rw [top_k_ranks, hslice, List.length_take]
  · intro hlen
    rw [top_k_entries, hslice]
    exact List.take_of_length_le (by omega)

theorem C2_top_k_prefix_witness :
    (0 : ℤ) ≤ 1 ∧
    (lbAB.top_k 1).map (fun t => (t.2.2, t.2.1)) = lbAB.drivers.take (1 : ℤ).toNat ∧
    (lbAB.top_k 1).map (fun t => t.1) = List.range' 1 (min (1 : ℤ).toNat lbAB.drivers.length) ∧
    ((lbAB.drivers.length : ℤ) ≤ 1 →
      (lbAB.top_k 1).map (fun t => (t.2.2, t.2.1)) = lbAB.drivers) :=
  ⟨by decide, C2_top_k_prefix lbAB 1 (by decide)⟩

/-- C10: for negative `k`, `top_k` raises no error and returns the first
`size - |k|` entries (clamped at zero, Python slice semantics), renumbered
from rank 1 — neither all entries nor a failure. -/
theorem C10_top_k_negative (lb : Leaderboard) (k : ℤ) (hk : k < 0) :
    (lb.top_k k).map (fun t => (t.2.2, t.2.1)) =
      lb.drivers.take (lb.drivers.length - (-k).toNat) ∧
    (lb.top_k k).length = lb.drivers.length - (-k).toNat ∧
    (lb.top_k k).map (fun t => t.1) =
      List.range' 1 (lb.drivers.length - (-k).toNat) := by
  have hslice : Leaderboard.pyslice lb.drivers k = lb.drivers.take (lb.drivers.length - (-k).toNat) := by
    rw [Leaderboard.pyslice, if_pos hk]
    congr 1
    omega
  have hlen : (Leaderboard.pyslice lb.drivers k).length = lb.drivers.length - (-k).toNat := by
    rw [hslice, List.length_take]
    omega
  refine ⟨?_, ?_, ?_⟩
  · rw [top_k_entries, hslice]
  · have := congrArg List.length (top_k_entries lb k)
    rw [List.length_map] at this
    rw [this, hlen]
  · rw [top_k_ranks, hlen]

theorem C10_top_k_negative_witness :
    (-1 : ℤ) < 0 ∧
    (lbAB.top_k (-1)).map (fun t => (t.2.2, t.2.1)) =
      lbAB.drivers.take (lbAB.drivers.length - (-(-1) : ℤ).toNat) ∧
    (lbAB.top_k (-1)).length = lbAB.drivers.length - (-(-1) : ℤ).toNat ∧
    (lbAB.top_k (-1)).map (fun t => t.1) =
      List.range' 1 (lbAB.drivers.length - (-(-1) : ℤ).toNat) :=
  ⟨by decide, C10_top_k_negative lbAB (-1) (by decide)⟩

end TopK

section NanBehaviour

/-- C5 counterexample: on the empty leaderboard, `update` with a NaN score
raises nothing and does not leave the index unchanged — it stores the NaN
entry and binding. -/
theorem C5_nan_counterexample :
    Leaderboard.init.update "A" Score.nan =
      ⟨[(Score.nan, "A")], [("A", Score.nan)]⟩ ∧
    Leaderboard.init.update "A" Score.nan ≠ Leaderboard.init := by
  decide

/-- C5 (amended): `update` performs no finiteness check.  A NaN upsert
always succeeds: since every comparison against NaN is false, the new
entry is appended after all existing entries, and the dict maps the key to
NaN. -/
theorem C5_nan_accepted (lb : Leaderboard) (name : String) :
    (lb.update name Score.nan).drivers.getLast? = some (Score.nan, name) ∧
    dictGet (lb.update name Score.nan).driver_map name = some Score.nan := by
  have hnanlt : ∀ e : Entry, entryLt (Score.nan, name) e = false := by
    intro e
    obtain ⟨s, k⟩ := e
    cases s <;> rfl
  have hins : ∀ a : List Entry, insort a (Score.nan, name) = a ++ [(Score.nan, name)] := by
    intro a
    have hpos : bisect_right (a ++ []) (Score.nan, name) = a.length :=
      bisect_right_pos (fun e _ => hnanlt e) (fun e he => absurd he (List.not_mem_nil e))
    rw [List.append_nil] at hpos
    rw [insort, hpos, List.insertIdx_length_self]
  constructor
  · cases hg : dictGet lb.driver_map name with
    | none =>
      simp only [Leaderboard.update, hg, hins]
      exact List.getLast?_concat _
    | some old =>
      simp only [Leaderboard.update, hg, hins]
      exact List.getLast?_concat _
  · cases hg : dictGet lb.driver_map name with
    | none =>
      simp only [Leaderboard.update, hg]
      exact dictGet_dictSet_self _ _ _
    | some old =>
      simp only [Leaderboard.update, hg]
      exact dictGet_dictSet_self _ _ _

end NanBehaviour

/-- The board built by the demo scenario of the spec and of the module
footer: LEC, SAI, VER, PER, BOT. -/
def demoBoard : Leaderboard :=
  ((((Leaderboard.init.update "LEC" (Score.fin 0.0)).update "SAI"
    (Score.fin 11.850)).update "VER" (Score.fin 12.252)).update "PER"
    (Score.fin 14.777)).update "BOT" (Score.fin 16.347)

/-- C8: the five-driver scenario: LEC leads, the top three are LEC, SAI,
VER, and after VER improves to 11.500 the ranks of VER and SAI swap to
2 and 3. -/
theorem C8_five_driver_scenario :
    demoBoard.get_rank "LEC" = some 1 ∧
    demoBoard.top_k 3 = [(1, "LEC", Score.fin 0.0), (2, "SAI", Score.fin 11.850),
      (3, "VER", Score.fin 12.252)] ∧
    (demoBoard.update "VER" (Score.fin 11.500)).get_rank "VER" = some 2 ∧
    (demoBoard.update "VER" (Score.fin 11.500)).get_rank "SAI" = some 3 := by
  have e0 : (0.0 : ℚ) = 0 := by norm_num
  have e1 : (11.850 : ℚ) = Rat.mk' 237 20 (by norm_num) (by norm_num) := by
    rw [Rat.mk'_eq_divInt, Rat.divInt_eq_div]
    norm_num
  have e2 : (12.252 : ℚ) = Rat.mk' 3063 250 (by norm_num) (by norm_num) := by
    rw [Rat.mk'_eq_divInt, Rat.divInt_eq_div]
    norm_num
  have e3 : (14.777 : ℚ) = Rat.mk' 14777 1000 (by norm_num) (by norm_num) := by
    rw [Rat.mk'_eq_divInt, Rat.divInt_eq_div]
    norm_num
  have e4 : (16.347 : ℚ) = Rat.mk' 16347 1000 (by norm_num) (by norm_num) := by
    rw [Rat.mk'_eq_divInt, Rat.divInt_eq_div]
    norm_num
  have e5 : (11.500 : ℚ) = Rat.mk' 23 2 (by norm_num) (by norm_num) := by
    rw [Rat.mk'_eq_divInt, Rat.divInt_eq_div]
    norm_num
  simp only [demoBoard, e0, e1, e2, e3, e4, e5]
  decide

section Complexity

/-- The number of element moves the two flat-list mutations inside
`update` perform: `list.pop(idx)` shifts every element after `idx` and
the `list.insert` inside `insort` shifts every element at or after the
insertion point (CPython list semantics). -/
def update_shift_cost (lb : Leaderboard) (name : String) (gap : Score) : ℕ :=
  match dictGet lb.driver_map name with
  | some old_gap =>
    (lb.drivers.length - bisect_left lb.drivers (old_gap, name) - 1) +
      ((lb.drivers.eraseIdx (bisect_left lb.drivers (old_gap, name))).length -
        bisect_right (lb.drivers.eraseIdx (bisect_left lb.drivers (old_gap, name))) (gap, name))
  | none => lb.drivers.length - bisect_right lb.drivers (gap, name)

/-- Inserting a fresh key below every stored entry shifts the whole list. -/
theorem update_shift_cost_front {lb : Leaderboard} {name : String} {gap : Score}
    (hg : dictGet lb.driver_map name = none)
    (hall : ∀ e ∈ lb.drivers, entryLt (gap, name) e = true) :
    update_shift_cost lb name gap = lb.drivers.length := by
  have h0 : bisect_right lb.drivers (gap, name) = 0 := by
    have h := @bisect_right_pos [] lb.drivers (gap, name)
      (fun e he => absurd he (List.not_mem_nil e)) (fun e he => hall e he)
    rw [List.nil_append] at h
    exact h
  simp only [update_shift_cost, hg, h0]
  omega

/-- Inserting a fresh key grows the list by one. -/
theorem update_absent_length {lb : Leaderboard} {name : String}
    (hg : dictGet lb.driver_map name = none) (gap : Score) :
    (lb.update name gap).drivers.length = lb.drivers.length + 1 := by
  have h : (lb.update name gap).drivers = insort lb.drivers (gap, name) := by
    simp only [Leaderboard.update, hg]
  rw [h, insort, List.length_insertIdx _ _ (bisect_right_le lb.drivers (gap, name))]

/-- The `i`-th driver key: a run of `i + 1` letters `a` (all distinct). -/
def natKey (n : ℕ) : String := String.mk (List.replicate (n + 1) 'a')

theorem natKey_inj {i j : ℕ} (h : natKey i = natKey j) : i = j := by
  have hd : List.replicate (i + 1) 'a' = List.replicate (j + 1) 'a' :=
    congrArg String.data h
  have hl := congrArg List.length hd
  simpa using hl

/-- A board with `n` fresh keys at scores `1, …, n`. -/
def mkBoard : ℕ → Leaderboard
  | 0 => Leaderboard.init
  | n + 1 => (mkBoard n).update (natKey n) (Score.fin ((n : ℚ) + 1))

theorem mkBoard_facts (n : ℕ) : LbInv (mkBoard n) ∧
    (∀ p ∈ (mkBoard n).driver_map,
      ∃ i, i < n ∧ p = (natKey i, Score.fin ((i : ℚ) + 1))) ∧
    (mkBoard n).drivers.length = n := by
  induction n with
  | zero => exact ⟨init_LbInv, fun p hp => absurd hp (List.not_mem_nil p), rfl⟩
  | succ n ih =>
    obtain ⟨hinv, hmap, hlen⟩ := ih
    have hfresh : dictGet (mkBoard n).driver_map (natKey n) = none := by
      rw [dictGet_none_iff]
      intro p hp hkey
      obtain ⟨i, hi, hpe⟩ := hmap p hp
      have hik : natKey i = natKey n := by
        rw [hpe] at hkey
        exact hkey
      exact absurd (natKey_inj hik) (by omega)
    refine ⟨update_LbInv _ hinv _ _, ?_, ?_⟩
    · intro p hp
      have hm : (mkBoard (n + 1)).driver_map =
          dictSet (mkBoard n).driver_map (natKey n) (Score.fin ((n : ℚ) + 1)) := rfl
      rw [hm, dictSet_absent hfresh] at hp
      rcases List.mem_append.mp hp with h1 | h2
      · obtain ⟨i, hi, hpe⟩ := hmap p h1
        exact ⟨i, by omega, hpe⟩
      · exact ⟨n, by omega, List.mem_singleton.mp h2⟩
    · have hl : (mkBoard (n + 1)).drivers.length = (mkBoard n).drivers.length + 1 :=
        update_absent_length hfresh _
      omega

theorem mkBoard_fresh (n : ℕ) : dictGet (mkBoard n).driver_map (natKey n) = none := by
  obtain ⟨hinv, hmap, hlen⟩ := mkBoard_facts n
  rw [dictGet_none_iff]
  intro p hp hkey
  obtain ⟨i, hi, hpe⟩ := hmap p hp
  have hik : natKey i = natKey n := by
    rw [hpe] at hkey
    exact hkey
  exact absurd (natKey_inj hik) (by omega)

theorem log_budget (c : ℕ) : c * (2 * c + 3) < 2 ^ (2 * c + 2) := by
  have h1 : c < 2 ^ c := Nat.lt_two_pow c
  have hsucc : c + 1 ≤ 2 ^ c := Nat.succ_le_of_lt h1
  have h2 : 2 * c + 3 ≤ 2 ^ (c + 2) := by
    calc 2 * c + 3 ≤ 4 * (c + 1) := by omega
    _ ≤ 4 * 2 ^ c := Nat.mul_le_mul_left 4 hsucc
    _ = 2 ^ (c + 2) := by
      rw [pow_add]
      ring
  have hpos : 0 < 2 ^ (c + 2) := pow_pos (by norm_num) _
  calc c * (2 * c + 3) ≤ c * 2 ^ (c + 2) := Nat.mul_le_mul_left c h2
  _ < 2 ^ c * 2 ^ (c + 2) := (Nat.mul_lt_mul_right hpos).mpr h1
  _ = 2 ^ (2 * c + 2) := by
    rw [← pow_add]
    have he : c + (c + 2) = 2 * c + 2 := by omega
    rw [he]

/-- C9 refutation: `update` on the flat sorted list is not `O(log n)`.
For every constant `c` there is a valid leaderboard (of size `2 ^ (2c+2)`,
which exceeds `c`) and an upsert whose element-shift count exceeds
`c * (log₂ size + 1)` — contradicting the docstring and spec claim of
logarithmic updates. -/
theorem C9_update_not_logarithmic :
    ∀ c : ℕ, ∃ lb : Leaderboard, ∃ name : String, ∃ gap : Score,
      LbInv lb ∧ c < lb.drivers.length ∧
      c * (Nat.log 2 lb.drivers.length + 1) < update_shift_cost lb name gap := by
  intro c
  obtain ⟨hinv, hmap, hlen⟩ := mkBoard_facts (2 ^ (2 * c + 2))
  have hfresh := mkBoard_fresh (2 ^ (2 * c + 2))
  have hall : ∀ e ∈ (mkBoard (2 ^ (2 * c + 2))).drivers,
      entryLt (Score.fin 0, natKey (2 ^ (2 * c + 2))) e = true := by
    intro e he
    have hm := hinv.2.2.1 e he
    obtain ⟨i, hi, hpe⟩ := hmap (e.2, e.1) hm
    have he1 : e.1 = Score.fin ((i : ℚ) + 1) := by
      have := congrArg Prod.snd hpe
      simpa using this
    have hq : (0 : ℚ) < (i : ℚ) + 1 := by positivity
    rw [entryLt, he1]
    have hplt : (Score.fin 0).pyLt (Score.fin ((i : ℚ) + 1)) = true := by
      simp [Score.pyLt, hq]
    rw [hplt]
    rfl
  have hcost := update_shift_cost_front hfresh hall
  refine ⟨mkBoard (2 ^ (2 * c + 2)), natKey (2 ^ (2 * c + 2)), Score.fin 0, hinv, ?_, ?_⟩
  · have : c < 2 ^ c := Nat.lt_two_pow c
    have hle : 2 ^ c ≤ 2 ^ (2 * c + 2) := Nat.pow_le_pow_right (by norm_num) (by omega)
    omega
  · rw [hcost, hlen, Nat.log_pow (by norm_num)]
    have he : 2 * c + 2 + 1 = 2 * c + 3 := by omega
    rw [he]
    exact log_budget c

end Complexity
